import Mathlib

/-!
Shallow embedding of `src/update_excel_metadata.py` (the in-place ZIP/XML
metadata rewriter: `assignMetadataToExcel`, `_customUnzip`, `_infuseMetadata`,
`_customZip`).

Modelling conventions:
  * bytes are `Nat` (values < 256 by convention);
  * a ZIP archive is the ordered list of its entries; each entry carries the
    `zipfile.ZipInfo` descriptor (`filename` plus an opaque `meta` field that
    stands for the remaining preserved metadata: `date_time`, `compress_type`,
    `external_attr`, ...) and its decompressed content bytes;
  * the scratch directory `tmp_unzipped` is an association list from
    archive-relative POSIX paths to file contents, newest binding first
    (an insert shadows older bindings, mirroring extraction overwriting);
  * the external `zipfile` container codec is a parameter
    (`parseZip : List Nat → Option Archive`, `encodeZip : Archive → List Nat`),
    and the external `xml.etree.ElementTree.fromstring` parser is a parameter
    (`parseXML : String → Option XElem`); everything the repository's own code
    does with their results is embedded concretely;
  * Python exceptions are the error values of the spec's taxonomy
    (`BadZipFile` ↦ `archiveError`, `OSError`/`FileNotFoundError`/
    `IsADirectoryError` ↦ `filesystemError`, `ET.ParseError` ↦
    `malformedDocumentError`);
  * an XML element (`xml.etree.ElementTree.Element`) is a tag in Clark
    notation (namespace URI + local name), its text (Python `None` and `""`
    behave identically everywhere this code touches, so both are `""`), and
    its list of children.  Attributes and tail text are not modelled: the
    managed core-properties elements carry neither, and no claim mentions
    them.
-/

set_option maxRecDepth 100000

/-- Error taxonomy of the spec (section 7), as surfaced by the Python
exceptions of the source. -/
inductive PipelineError : Type where
  | archiveError : PipelineError
  | filesystemError : PipelineError
  | malformedDocumentError : PipelineError
deriving DecidableEq

/-- An XML tag in Clark notation: `{uri}name` (`uri = ""` means no
namespace). -/
structure XTag : Type where
  uri : String
  name : String
deriving DecidableEq

/-- `xml.etree.ElementTree.Element`: tag, text, children. -/
inductive XElem : Type where
  | mk : XTag → String → List XElem → XElem

/-- The tag of an element. -/
def XElem.tag : XElem → XTag
  | .mk t _ _ => t

/-- The text of an element (`""` models Python `None` as well; both are
falsy for the serializer and this code never distinguishes them). -/
def XElem.text : XElem → String
  | .mk _ s _ => s

/-- The list of child elements. -/
def XElem.children : XElem → List XElem
  | .mk _ _ c => c

/-- The OPC core-properties namespace URI (source line 38). -/
def coreNS : String :=
  "http://schemas.openxmlformats.org/package/2006/metadata/core-properties"

/-- `{core-properties}version`, the tag managed by `_infuseMetadata`. -/
def versionTag : XTag := ⟨coreNS, "version"⟩

/-- `{core-properties}keywords`, the tag managed by `_infuseMetadata`. -/
def keywordsTag : XTag := ⟨coreNS, "keywords"⟩

/-- `root.find("cp:version", ns)` / `root.find("cp:keywords", ns)`: first
direct child with the given tag. -/
def findTag (tg : XTag) (l : List XElem) : Option XElem :=
  l.find? (fun e => e.tag == tg)

/-- Setting `.text` on the element returned by `find`: the first child with
the given tag has its text replaced in place (children kept). -/
def setFirstTagText (tg : XTag) (txt : String) : List XElem → List XElem
  | [] => []
  | e :: es =>
    if e.tag == tg then XElem.mk e.tag txt e.children :: es
    else e :: setFirstTagText tg txt es

/-- `root.remove(elem)` where `elem` is the element `find` returned: removes
the first child with the given tag (Python `list.remove` removes the first
`==`-equal item, and `Element` compares by identity). -/
def removeFirstTag (tg : XTag) : List XElem → List XElem
  | [] => []
  | e :: es => if e.tag == tg then es else e :: removeFirstTag tg es

/-- The in-memory tree mutation of `_infuseMetadata` (source lines 54-74):
update-or-create `cp:version`, then detach / create `cp:keywords`, set its
text, and re-append it as the last child. -/
def infuseTree (commit_hash release_tag : String) (root : XElem) : XElem :=
  let ch0 := root.children
  let ch1 :=
    match findTag versionTag ch0 with
    | some _ => setFirstTagText versionTag release_tag ch0
    | none => ch0 ++ [XElem.mk versionTag release_tag []]
  let ch2 :=
    match findTag keywordsTag ch1 with
    | some k => removeFirstTag keywordsTag ch1 ++ [XElem.mk k.tag commit_hash k.children]
    | none => ch1 ++ [XElem.mk keywordsTag commit_hash []]
  XElem.mk root.tag root.text ch2

/-- Direct children with a given tag. -/
def filterTag (tg : XTag) (l : List XElem) : List XElem :=
  l.filter (fun e => e.tag == tg)

/-- Number of direct children with a given tag. -/
def tagCount (tg : XTag) (l : List XElem) : Nat :=
  (filterTag tg l).length

/-- Texts of the direct `cp:version` children of the root. -/
def versionTexts (root : XElem) : List String :=
  (filterTag versionTag root.children).map XElem.text

/-- Texts of the direct `cp:keywords` children of the root. -/
def keywordTexts (root : XElem) : List String :=
  (filterTag keywordsTag root.children).map XElem.text

/-- A well-formed core-properties document: at most one `cp:version` and at
most one `cp:keywords` child of the root (the OPC core-properties schema
allows each property at most once). -/
def WellFormedCore (root : XElem) : Prop :=
  tagCount versionTag root.children ≤ 1 ∧ tagCount keywordsTag root.children ≤ 1

/-!
The serializer: `ET.tostring(root, encoding="UTF-8", xml_declaration=True)`
with the namespace prefixes registered at source lines 37-42 (on top of
ElementTree's built-in `_namespace_map` defaults), followed by the textual
`standalone="yes"` injection of source lines 81-82.
-/

/-- `xml.sax.saxutils`-style CDATA escaping used by `ET._escape_cdata`:
`&`, `<`, `>`. -/
def escCdataChar (c : Char) : List Char :=
  if c = Char.ofNat 38 then (Char.ofNat 38) :: "amp;".toList
  else if c = Char.ofNat 60 then (Char.ofNat 38) :: "lt;".toList
  else if c = Char.ofNat 62 then (Char.ofNat 38) :: "gt;".toList
  else [c]

/-- `ET._escape_cdata` on a character list. -/
def escCdataList : List Char → List Char
  | [] => []
  | c :: cs => escCdataChar c ++ escCdataList cs

/-- `ET._escape_cdata` on a string. -/
def escapeCdata (s : String) : String :=
  String.mk (escCdataList s.toList)

/-- Prefix test on character lists, examining the pattern first (an empty
pattern is a prefix of anything without inspecting it). -/
def isPrefixOfL : List Char → List Char → Bool
  | [], _ => true
  | _ :: _, [] => false
  | p :: ps, c :: cs => p == c && isPrefixOfL ps cs

/-- Left inverse of `escCdataList`: what an XML parser does to character
data (entity references `&amp;` `&lt;` `&gt;` back to characters).  Used to
express that re-parsing serialized text recovers it verbatim. -/
def unescCdataList : List Char → List Char
  | [] => []
  | c :: cs =>
    if c = Char.ofNat 38 then
      if isPrefixOfL "amp;".toList cs then Char.ofNat 38 :: unescCdataList (cs.drop 4)
      else if isPrefixOfL "lt;".toList cs then Char.ofNat 60 :: unescCdataList (cs.drop 3)
      else if isPrefixOfL "gt;".toList cs then Char.ofNat 62 :: unescCdataList (cs.drop 3)
      else c :: unescCdataList cs
    else c :: unescCdataList cs
termination_by l => l.length
decreasing_by
  all_goals simp only [List.length_cons, List.length_drop]
  all_goals omega

/-- `ET._escape_attrib` (for the `xmlns` attribute values): `&`, `<`, `>`,
`"`, CR, LF, TAB. -/
def escAttribChar (c : Char) : List Char :=
  if c = Char.ofNat 38 then (Char.ofNat 38) :: "amp;".toList
  else if c = Char.ofNat 60 then (Char.ofNat 38) :: "lt;".toList
  else if c = Char.ofNat 62 then (Char.ofNat 38) :: "gt;".toList
  else if c = Char.ofNat 34 then (Char.ofNat 38) :: "quot;".toList
  else if c = Char.ofNat 13 then (Char.ofNat 38) :: "#13;".toList
  else if c = Char.ofNat 10 then (Char.ofNat 38) :: "#10;".toList
  else if c = Char.ofNat 9 then (Char.ofNat 38) :: "#09;".toList
  else [c]

/-- `ET._escape_attrib` on a string. -/
def escapeAttrib (s : String) : String :=
  String.mk (s.toList.foldr (fun c acc => escAttribChar c ++ acc) [])

/-- The prefix registry at serialization time: ElementTree's default
`_namespace_map` entries plus the four `ET.register_namespace` calls of
source lines 37-42 (`dc` is already a default; re-registering it is a
no-op). -/
def nsRegistry : List (String × String) :=
  [ (coreNS, "cp"),
    ("http://purl.org/dc/elements/1.1/", "dc"),
    ("http://purl.org/dc/terms/", "dcterms"),
    ("http://purl.org/dc/dcmitype/", "dcmitype"),
    ("http://www.w3.org/XML/1998/namespace", "xml"),
    ("http://www.w3.org/1999/xhtml", "html"),
    ("http://www.w3.org/1999/02/22-rdf-syntax-ns#", "rdf"),
    ("http://schemas.xmlsoap.org/wsdl/", "wsdl"),
    ("http://www.w3.org/2001/XMLSchema", "xs"),
    ("http://www.w3.org/2001/XMLSchema-instance", "xsi") ]

mutual
/-- `ET._namespaces`: collect the namespace URIs used in the document, in
document (preorder) iteration order, first occurrence only, skipping the
empty URI. -/
def collectNS : List String → XElem → List String
  | acc, .mk t _ ch =>
    let acc1 := if t.uri = "" ∨ t.uri ∈ acc then acc else acc ++ [t.uri]
    collectNSList acc1 ch
/-- `collectNS` over a child list. -/
def collectNSList : List String → List XElem → List String
  | acc, [] => acc
  | acc, e :: es => collectNSList (collectNS acc e) es
end

/-- Code-point lexicographic comparison on character lists (Python string
`<=`), used to model `sorted(namespaces.items(), key=lambda x: x[1])`. -/
def charListLe : List Char → List Char → Bool
  | [], _ => true
  | _ :: _, [] => false
  | a :: as, b :: bs =>
    if a.toNat < b.toNat then true
    else if b.toNat < a.toNat then false
    else charListLe as bs

/-- Stable insertion of a `(uri, prefix)` pair into a list sorted by prefix. -/
def insertByPrefix (p : String × String) : List (String × String) → List (String × String)
  | [] => [p]
  | q :: qs =>
    if charListLe p.2.toList q.2.toList then p :: q :: qs
    else q :: insertByPrefix p qs

/-- Stable sort of the namespace pairs by prefix (Python `sorted` with
`key=lambda x: x[1]`; all prefixes here are distinct, so stability is moot). -/
def sortByPrefix : List (String × String) → List (String × String)
  | [] => []
  | p :: ps => insertByPrefix p (sortByPrefix ps)

/-- Assign each collected URI its serialization prefix: the registered one,
or `ns<i>` where `i` is the number of namespaces seen when it was added
(its position in the collected order), as `ET._namespaces` does. -/
def assignPrefixes (uris : List String) : List (String × String) :=
  (uris.enum).map (fun p =>
    (p.2, ((nsRegistry.find? (fun q => q.1 == p.2)).map (fun q => q.2)).getD
      ("ns" ++ toString p.1)))

/-- The qualified name a tag serializes to under a prefix assignment. -/
def qname (pm : List (String × String)) (t : XTag) : String :=
  if t.uri = "" then t.name
  else (((pm.find? (fun q => q.1 == t.uri)).map (fun q => q.2)).getD "ns0") ++ ":" ++ t.name

/-- The `xmlns:prefix="uri"` attribute text written on the root element,
pairs sorted by prefix. -/
def xmlnsAttrs (pm : List (String × String)) : String :=
  (sortByPrefix pm).foldr
    (fun p acc => " xmlns:" ++ p.2 ++ "=\"" ++ escapeAttrib p.1 ++ "\"" ++ acc) ""

mutual
/-- `ET._serialize_xml` for one element: short form `<q />` when the text is
falsy and there are no children, else `<q>text children</q>`.  `extra` is the
`xmlns` attribute block (non-empty only on the root). -/
def serializeElem (pm : List (String × String)) (extra : String) : XElem → String
  | .mk t tx ch =>
    let q := qname pm t
    if tx = "" ∧ ch.isEmpty then "<" ++ q ++ extra ++ " />"
    else "<" ++ q ++ extra ++ ">" ++ escapeCdata tx ++ serializeChildren pm ch ++ "</" ++ q ++ ">"
/-- Serialize a child list in order. -/
def serializeChildren (pm : List (String × String)) : List XElem → String
  | [] => ""
  | e :: es => serializeElem pm "" e ++ serializeChildren pm es
end

/-- The document body `ET.tostring` produces (everything after the XML
declaration): the root element with the collected `xmlns` declarations. -/
def serializeBody (root : XElem) : String :=
  let pm := assignPrefixes (collectNS [] root)
  serializeElem pm (xmlnsAttrs pm) root

/-- The characters of the XML declaration `ET.tostring` emits for
`encoding="UTF-8"`, up to (excluding) the closing `?>`: the text
`<?xml version='1.0' encoding='UTF-8'` (ElementTree uses single quotes). -/
def xmlDeclPreChars : List Char :=
  "<?xml version=".toList ++ [Char.ofNat 39] ++ "1.0".toList ++ [Char.ofNat 39]
    ++ " encoding=".toList ++ [Char.ofNat 39] ++ "UTF-8".toList ++ [Char.ofNat 39]

/-- The XML declaration prefix as a string. -/
def xmlDeclPre : String := String.mk xmlDeclPreChars

/-- Full output of `ET.tostring(root, encoding="UTF-8", xml_declaration=True)`
decoded back to text (source lines 77-79): declaration, newline, body. -/
def serializeDoc (root : XElem) : String :=
  xmlDeclPre ++ "?>\n" ++ serializeBody root

/-- Python `pat in s` (substring test) on character lists. -/
def hasSubstrL (pat : List Char) : List Char → Bool
  | [] => isPrefixOfL pat []
  | c :: cs => isPrefixOfL pat (c :: cs) || hasSubstrL pat cs

/-- Python `s.replace(pat, ins, 1)` on character lists: replace the first
occurrence of `pat` (no occurrence: unchanged). -/
def replaceFirstL (pat ins : List Char) : List Char → List Char
  | [] => []
  | c :: cs =>
    if isPrefixOfL pat (c :: cs) then ins ++ (c :: cs).drop pat.length
    else c :: replaceFirstL pat ins cs

/-- The characters of `" standalone=\"yes\"?>"`, the replacement text of
source line 82. -/
def standaloneInject : List Char := " standalone=\"yes\"?>".toList

/-- Source lines 80-82: if the *whole serialized string* does not contain
the substring `standalone`, textually replace the first `?>` with
`standalone="yes"?>`; otherwise leave the string untouched. -/
def ensureStandalone (s : String) : String :=
  if hasSubstrL "standalone".toList s.toList then s
  else String.mk (replaceFirstL "?>".toList standaloneInject s.toList)

/-- What `_infuseMetadata` writes back to `docProps/core.xml` (source lines
76-86), as a function of the parsed input document. -/
def infuseOutput (commit_hash release_tag : String) (root : XElem) : String :=
  ensureStandalone (serializeDoc (infuseTree commit_hash release_tag root))

/-- Everything strictly before the first occurrence of `pat` (used to talk
about the declaration part of the written file: the text before `?>`). -/
def takeBeforeL (pat : List Char) : List Char → List Char
  | [] => []
  | c :: cs =>
    if isPrefixOfL pat (c :: cs) then []
    else c :: takeBeforeL pat cs

/-!
Byte-level text codecs: `open(..., encoding="utf-8", errors="replace")`
(source line 45) and `open(..., "w", encoding="utf-8")` (source line 85).
-/

/-- Is a byte a UTF-8 continuation byte (`0x80..0xBF`)? -/
def isCont (b : Nat) : Bool := 128 ≤ b ∧ b ≤ 191

/-- The replacement character U+FFFD. -/
def fffd : Char := Char.ofNat 65533

/-- Lowest admissible second byte after a given lead byte (UTF-8 shortest
form: `E0` needs `A0..`, `F0` needs `90..`, surrogates and values above
U+10FFFF excluded via `ED ..9F` and `F4 ..8F`). -/
def utf8SecondLo (b : Nat) : Nat := if b = 224 then 160 else if b = 240 then 144 else 128

/-- Highest admissible second byte after a given lead byte. -/
def utf8SecondHi (b : Nat) : Nat := if b = 237 then 159 else if b = 244 then 143 else 191

/-- CPython's UTF-8 decoder with `errors="replace"`: each *maximal subpart*
of an ill-formed sequence becomes a single U+FFFD (so a truncated multi-byte
prefix collapses to one replacement character, while each stray or invalid
single byte gets its own). -/
def decodeUtf8ReplaceAux : List Nat → List Char
  | [] => []
  | b :: bs =>
    if b < 128 then Char.ofNat b :: decodeUtf8ReplaceAux bs
    else if 194 ≤ b ∧ b ≤ 223 then
      match bs with
      | [] => [fffd]
      | b2 :: rest =>
        if isCont b2 then Char.ofNat ((b - 192) * 64 + (b2 - 128)) :: decodeUtf8ReplaceAux rest
        else fffd :: decodeUtf8ReplaceAux (b2 :: rest)
    else if 224 ≤ b ∧ b ≤ 239 then
      match bs with
      | [] => [fffd]
      | b2 :: rest2 =>
        if utf8SecondLo b ≤ b2 ∧ b2 ≤ utf8SecondHi b then
          match rest2 with
          | [] => [fffd]
          | b3 :: rest3 =>
            if isCont b3 then
              Char.ofNat ((b - 224) * 4096 + (b2 - 128) * 64 + (b3 - 128)) :: decodeUtf8ReplaceAux rest3
            else fffd :: decodeUtf8ReplaceAux (b3 :: rest3)
        else fffd :: decodeUtf8ReplaceAux (b2 :: rest2)
    else if 240 ≤ b ∧ b ≤ 244 then
      match bs with
      | [] => [fffd]
      | b2 :: rest2 =>
        if utf8SecondLo b ≤ b2 ∧ b2 ≤ utf8SecondHi b then
          match rest2 with
          | [] => [fffd]
          | b3 :: rest3 =>
            if isCont b3 then
              match rest3 with
              | [] => [fffd]
              | b4 :: rest4 =>
                if isCont b4 then
                  Char.ofNat ((b - 240) * 262144 + (b2 - 128) * 4096 + (b3 - 128) * 64 + (b4 - 128))
                    :: decodeUtf8ReplaceAux rest4
                else fffd :: decodeUtf8ReplaceAux (b4 :: rest4)
            else fffd :: decodeUtf8ReplaceAux (b3 :: rest3)
        else fffd :: decodeUtf8ReplaceAux (b2 :: rest2)
    else fffd :: decodeUtf8ReplaceAux bs

/-- `bytes.decode("utf-8", errors="replace")`: total, never raises. -/
def decodeUtf8Replace (bs : List Nat) : String :=
  String.mk (decodeUtf8ReplaceAux bs)

/-- UTF-8 encoding of one scalar value. -/
def encodeUtf8Char (c : Char) : List Nat :=
  let n := c.toNat
  if n < 128 then [n]
  else if n < 2048 then [192 + n / 64, 128 + n % 64]
  else if n < 65536 then [224 + n / 4096, 128 + (n / 64) % 64, 128 + n % 64]
  else [240 + n / 262144, 128 + (n / 4096) % 64, 128 + (n / 64) % 64, 128 + n % 64]

/-- `str.encode("utf-8")`: total. -/
def encodeUtf8 (s : String) : List Nat :=
  s.toList.foldr (fun c acc => encodeUtf8Char c ++ acc) []

/-!
ZIP container, scratch directory, and the three pipeline stages.
-/

/-- A `zipfile.ZipInfo` descriptor: the archive-relative name plus an opaque
stand-in for all other metadata preserved verbatim by
`zip_out.writestr(info, data)` (`date_time`, `compress_type`,
`external_attr`, ...). -/
structure ZipInfo : Type where
  filename : String
  meta : Nat
deriving DecidableEq

/-- One archive member: its descriptor and its content bytes. -/
structure ZipEntry : Type where
  info : ZipInfo
  data : List Nat
deriving DecidableEq

/-- An archive is its ordered entry list (the order of `infolist()`). -/
abbrev Archive := List ZipEntry

/-- The scratch tree `tmp_unzipped`: newest binding first. -/
abbrev ScratchTree := List (String × List Nat)

/-- Read the file at a relative path in the scratch tree. -/
def lookupFile (t : ScratchTree) (n : String) : Option (List Nat) :=
  (t.find? (fun p => p.1 == n)).map (fun p => p.2)

/-- (Over)write the file at a relative path in the scratch tree. -/
def insertFile (t : ScratchTree) (n : String) (d : List Nat) : ScratchTree :=
  (n, d) :: t

/-- `ZipInfo.is_dir()`: the member name ends with `/`; `extractall` creates
a directory for it and writes no file. -/
def isDirName (n : String) : Bool := n.toList.getLast? == some (Char.ofNat 47)

/-- Split a path into its `/`-separated components. -/
def splitOnSlash : List Char → List (List Char)
  | [] => [[]]
  | c :: cs =>
    match splitOnSlash cs with
    | [] => [[c]]
    | h :: t =>
      if c = Char.ofNat 47 then [] :: h :: t else (c :: h) :: t

/-- Extraction of a single member by `extractall` (a directory member
creates a directory, which holds no readable content; a file member writes
its bytes, overwriting anything already there). -/
def extractOne (t : ScratchTree) (e : ZipEntry) : ScratchTree :=
  if isDirName e.info.filename then t else insertFile t e.info.filename e.data

/-- `zip_ref.extractall(tmp_dir)` into whatever the scratch directory
already holds (the source reuses the fixed name `tmp_unzipped`). -/
def extractAllInto (t0 : ScratchTree) (arch : Archive) : ScratchTree :=
  arch.foldl extractOne t0

/-- `_customUnzip` (source lines 26-30): record `infolist()` and extract all
members; returns the info list and the populated scratch tree. -/
def customUnzip (arch : Archive) (t0 : ScratchTree) : List ZipInfo × ScratchTree :=
  (arch.map (fun e => e.info), extractAllInto t0 arch)

/-- A member name that is a plain normalized relative POSIX path: no empty,
`.` or `..` components and not a directory name.  OPC part names satisfy
this; for such names `os.path.join(tmp_dir, name)` is exactly the location
`extractall` wrote (extraction sanitizes drive letters, absolute paths and
`..` components, so a non-normalized name would be read back from a
different path than it was extracted to). -/
def normalName (n : String) : Bool :=
  !(isDirName n) && (splitOnSlash n.toList).all
    (fun c => !(c.isEmpty) && !(c == ".".toList) && !(c == "..".toList))

/-- A valid ZIP package in the sense of the Open Packaging Conventions: the
member names are distinct normalized relative paths. -/
def validPackage (arch : Archive) : Prop :=
  (arch.map (fun e => e.info.filename)).Nodup ∧ arch.all (fun e => normalName e.info.filename)

/-- The archive-relative path of the core-properties part
(`os.path.join("tmp_unzipped", "docProps", "core.xml")` seen from inside the
scratch directory, source line 44). -/
def corePath : String := "docProps/core.xml"

/-- `_infuseMetadata` (source lines 33-86) as a scratch-tree transformer:
read `docProps/core.xml` (absent file: `FileNotFoundError`), decode with
`errors="replace"` (total), parse (`ET.ParseError` on failure -- the parser
itself is the external `parseXML`), transform, serialize and write back. -/
def infuseMetadataFS (parseXML : String → Option XElem) (commit_hash release_tag : String)
    (t : ScratchTree) : Except PipelineError ScratchTree :=
  match lookupFile t corePath with
  | none => .error .filesystemError
  | some b =>
    match parseXML (decodeUtf8Replace b) with
    | none => .error .malformedDocumentError
    | some root =>
      .ok (insertFile t corePath (encodeUtf8 (infuseOutput commit_hash release_tag root)))

/-- The entry-writing loop of `_customZip` (source lines 17-21): for each
recorded info, open the scratch file (missing file or directory:
`IsADirectoryError`/`FileNotFoundError`) and `writestr(info, data)`.
Returns the entries actually written before any failure, and the failure if
one occurred. -/
def readEntries (t : ScratchTree) : List ZipInfo → List ZipEntry × Option PipelineError
  | [] => ([], none)
  | i :: is =>
    match lookupFile t i.filename with
    | none => ([], some .filesystemError)
    | some d =>
      let r := readEntries t is
      (⟨i, d⟩ :: r.1, r.2)

/-- On-disk state seen by the pipeline: the bytes at the Package path and
the scratch directory (an empty tree doubles as an absent/deleted one). -/
structure FSState : Type where
  pkg : List Nat
  scratch : ScratchTree
deriving DecidableEq

/-- `_customZip` (source lines 15-23): `ZipFile(output_file, "w")` truncates
the Package path at once; on any failure the `with` block still closes the
archive, leaving exactly the entries written so far on disk, and
`shutil.rmtree` is *not* reached (scratch kept); on success the full entry
list is on disk and the scratch directory is removed. -/
def customZipFS (encodeZip : Archive → List Nat) (infos : List ZipInfo)
    (st : FSState) : Option PipelineError × FSState :=
  let r := readEntries st.scratch infos
  match r.2 with
  | some e => (some e, { pkg := encodeZip r.1, scratch := st.scratch })
  | none => (none, { pkg := encodeZip r.1, scratch := [] })

/-- The unzip -> infuse -> rezip composition at the archive level (what a
run of `assignMetadataToExcel` does to the archive value, with the external
ZIP byte codec factored out). -/
def processArchive (parseXML : String → Option XElem) (commit_hash release_tag : String)
    (arch : Archive) (t0 : ScratchTree) : Except PipelineError Archive :=
  let u := customUnzip arch t0
  match infuseMetadataFS parseXML commit_hash release_tag u.2 with
  | .error e => .error e
  | .ok t2 =>
    let r := readEntries t2 u.1
    match r.2 with
    | some e => .error e
    | none => .ok r.1

/-- `assignMetadataToExcel` (source lines 8-12) as a filesystem-state
transformer.  `parseZip` models `zipfile.ZipFile(..., "r")` (`None` =
`BadZipFile`), `encodeZip` models the ZIP bytes written by
`zipfile.ZipFile(..., "w")`.  A failing stage propagates its error and
leaves the state exactly as that stage left it. -/
def assignMetadataToExcelFS (parseZip : List Nat → Option Archive)
    (parseXML : String → Option XElem) (encodeZip : Archive → List Nat)
    (commit_hash release_tag : String) (st : FSState) : Option PipelineError × FSState :=
  match parseZip st.pkg with
  | none => (some .archiveError, st)
  | some arch =>
    let u := customUnzip arch st.scratch
    match infuseMetadataFS parseXML commit_hash release_tag u.2 with
    | .error e => (some e, { st with scratch := u.2 })
    | .ok t2 => customZipFS encodeZip u.1 { pkg := st.pkg, scratch := t2 }

/-!
Concrete sample data used by the witnesses and counterexamples below.
-/

/-- The Dublin Core elements namespace. -/
def dcNS : String := "http://purl.org/dc/elements/1.1/"

/-- The `cp:coreProperties` root tag. -/
def corePropsTag : XTag := ⟨coreNS, "coreProperties"⟩

/-- A small core-properties document with a title and neither `cp:version`
nor `cp:keywords`. -/
def docSimple : XElem :=
  .mk corePropsTag "" [.mk ⟨dcNS, "title"⟩ "Test Document" []]

/-- A core-properties document whose title text contains the word
`standalone`. -/
def docStandalone : XElem :=
  .mk corePropsTag "" [.mk ⟨dcNS, "title"⟩ "standalone document" []]

/-- A core-properties document where `cp:keywords` is the *first* child. -/
def docKwFirst : XElem :=
  .mk corePropsTag "" [.mk keywordsTag "old" [], .mk ⟨dcNS, "title"⟩ "T" []]

/-- An XML-parser stand-in that succeeds with `docSimple` (the parser is
external library code; claims conditioned on a successful parse are
instantiated with this). -/
def parseXMLsimple : String → Option XElem := fun _ => some docSimple

/-- Descriptor of the core-properties member in the sample archive. -/
def coreInfo : ZipInfo := ⟨"docProps/core.xml", 7⟩

/-- Descriptor of an untouched member in the sample archive. -/
def wbInfo : ZipInfo := ⟨"xl/workbook.xml", 3⟩

/-- Descriptor of a second untouched member. -/
def ctInfo : ZipInfo := ⟨"[Content_Types].xml", 5⟩

/-- A sample two-member package. -/
def arch0 : Archive := [⟨coreInfo, [60, 97]⟩, ⟨wbInfo, [65, 66]⟩]

/-- A sample three-member package. -/
def arch1 : Archive := [⟨ctInfo, [67]⟩, ⟨coreInfo, [60]⟩, ⟨wbInfo, [65, 66]⟩]

/-- The archive produced by a successful sample run on `arch0`. -/
def out0 : Archive :=
  match processArchive parseXMLsimple "abc123" "v1.0.0" arch0 [] with
  | .ok a => a
  | .error _ => []

/-- The archive produced by a successful sample run on `arch1`. -/
def out1 : Archive :=
  match processArchive parseXMLsimple "c9" "v2" arch1 [] with
  | .ok a => a
  | .error _ => []

/-- A concrete stand-in for the ZIP byte format written by
`zipfile.ZipFile(..., "w")` (names UTF-8 encoded, length-prefixed data);
used to instantiate the `encodeZip` parameter in concrete scenarios. -/
def encodeZipModel (a : Archive) : List Nat :=
  a.foldr
    (fun e acc =>
      encodeUtf8 e.info.filename ++ 0 :: e.info.meta :: e.data.length :: e.data ++ acc) []

/-- An info list whose second member is a directory entry (`xl/`):
`extractall` creates a directory for it, so the repack loop fails to open
it as a file. -/
def cexInfos : List ZipInfo := [wbInfo, ⟨"xl/", 0⟩]

/-- The scratch tree present when the failing repack starts. -/
def cexScratch : ScratchTree := [("xl/workbook.xml", [65, 66])]

/-- The on-disk state before the failing repack: the original Package bytes
and the populated scratch tree. -/
def cexSt : FSState := ⟨[9, 9, 9], cexScratch⟩

/-!
Helper lemmas: scratch-tree reads and the repack loop.
-/

/-- Reading a path right after writing it yields the written bytes. -/
theorem lookupFile_insert_same (t : ScratchTree) (n : String) (d : List Nat) :
    lookupFile (insertFile t n d) n = some d := by
  simp [lookupFile, insertFile, List.find?]

/-- Writing one path does not change reads of any other path. -/
theorem lookupFile_insert_other (t : ScratchTree) (n m : String) (d : List Nat)
    (h : m ≠ n) : lookupFile (insertFile t n d) m = lookupFile t m := by
  have hb : (n == m) = false := beq_eq_false_iff_ne.mpr (Ne.symm h)
  simp [lookupFile, insertFile, List.find?, hb]

/-- Extracting an archive does not change reads of names the archive does
not contain. -/
theorem lookup_extractAllInto_not_mem (arch : Archive) (t0 : ScratchTree) (n : String)
    (h : n ∉ arch.map (fun e => e.info.filename)) :
    lookupFile (extractAllInto t0 arch) n = lookupFile t0 n := by
  induction arch generalizing t0 with
  | nil => rfl
  | cons a as ih =>
    simp only [List.map_cons, List.mem_cons, not_or] at h
    show lookupFile (extractAllInto (extractOne t0 a) as) n = lookupFile t0 n
    rw [ih _ h.2]
    unfold extractOne
    split
    · rfl
    · exact lookupFile_insert_other _ _ _ _ h.1

/-- After extraction, a non-directory member with a name no other member
shares reads back as its own content, whatever the scratch directory held
before. -/
theorem lookup_extractAllInto_mem (arch : Archive) (t0 : ScratchTree) (e : ZipEntry)
    (hnd : (arch.map (fun x => x.info.filename)).Nodup) (he : e ∈ arch)
    (hdir : isDirName e.info.filename = false) :
    lookupFile (extractAllInto t0 arch) e.info.filename = some e.data := by
  induction arch generalizing t0 with
  | nil => cases he
  | cons a as ih =>
    simp only [List.map_cons, List.nodup_cons] at hnd
    rcases List.mem_cons.mp he with rfl | hmem
    · show lookupFile (extractAllInto (extractOne t0 e) as) e.info.filename = some e.data
      rw [lookup_extractAllInto_not_mem as _ _ hnd.1]
      unfold extractOne
      rw [hdir]
      exact lookupFile_insert_same _ _ _
    · exact ih _ hnd.2 hmem

/-- A successful repack loop writes one entry per recorded info, in order,
with exactly that info. -/
theorem readEntries_ok_map_info (t : ScratchTree) (infos : List ZipInfo)
    (w : List ZipEntry) (h : readEntries t infos = (w, none)) :
    w.map (fun p => p.info) = infos := by
  induction infos generalizing w with
  | nil =>
    simp only [readEntries] at h
    cases h
    rfl
  | cons i is ih =>
    simp only [readEntries] at h
    cases hl : lookupFile t i.filename with
    | none => rw [hl] at h; simp at h
    | some d =>
      rw [hl] at h
      have h1 : (⟨i, d⟩ : ZipEntry) :: (readEntries t is).1 = w := congrArg Prod.fst h
      have h2 : (readEntries t is).2 = none := congrArg Prod.snd h
      subst h1
      simp only [List.map_cons, List.cons.injEq]
      exact ⟨trivial, ih _ (by rw [← h2])⟩

/-- Every entry a successful repack loop wrote was read from the scratch
tree at its own name. -/
theorem readEntries_ok_lookup (t : ScratchTree) (infos : List ZipInfo)
    (w : List ZipEntry) (h : readEntries t infos = (w, none)) :
    ∀ p ∈ w, lookupFile t p.info.filename = some p.data := by
  induction infos generalizing w with
  | nil =>
    simp only [readEntries] at h
    have h1 : ([] : List ZipEntry) = w := congrArg Prod.fst h
    subst h1
    simp
  | cons i is ih =>
    simp only [readEntries] at h
    cases hl : lookupFile t i.filename with
    | none => rw [hl] at h; simp at h
    | some d =>
      rw [hl] at h
      have h1 : (⟨i, d⟩ : ZipEntry) :: (readEntries t is).1 = w := congrArg Prod.fst h
      have h2 : (readEntries t is).2 = none := congrArg Prod.snd h
      subst h1
      intro p hp
      rcases List.mem_cons.mp hp with rfl | hmem
      · exact hl
      · exact ih _ (by rw [← h2]) p hmem

/-- If the output has the same info column as the input and each output
entry holds the bytes the scratch tree gives for its name, then each input
member whose name is unique and whose scratch read returns its own bytes
occurs in the output exactly once, unchanged. -/
theorem filter_out_name (arch : Archive) (t2 : ScratchTree) (e : ZipEntry)
    (hd : lookupFile t2 e.info.filename = some e.data) (out : Archive)
    (hm : out.map (fun p => p.info) = arch.map (fun p => p.info))
    (hlk : ∀ p ∈ out, lookupFile t2 p.info.filename = some p.data)
    (hnd : (arch.map (fun x => x.info.filename)).Nodup)
    (he : e ∈ arch) :
    out.filter (fun o => o.info.filename == e.info.filename) = [e] := by
  induction arch generalizing out with
  | nil => cases he
  | cons a as ih =>
    cases out with
    | nil => simp at hm
    | cons o os =>
      simp only [List.map_cons, List.cons.injEq] at hm
      obtain ⟨ho, hos⟩ := hm
      simp only [List.map_cons, List.nodup_cons] at hnd
      have hnames : os.map (fun x => x.info.filename) = as.map (fun x => x.info.filename) := by
        have : (fun x : ZipEntry => x.info.filename)
            = (fun i : ZipInfo => i.filename) ∘ (fun x : ZipEntry => x.info) := rfl
        rw [this, ← List.map_map, ← List.map_map, hos]
      rcases List.mem_cons.mp he with rfl | hmem
      · have hname : (o.info.filename == e.info.filename) = true := by
          rw [ho]
          exact beq_self_eq_true _
        rw [List.filter_cons, if_pos hname]
        have h3 := hlk o (List.mem_cons_self o os)
        rw [ho] at h3
        have hdata : e.data = o.data := Option.some.inj (hd.symm.trans h3)
        have hoe : o = e := by
          obtain ⟨oi, od⟩ := o
          obtain ⟨ei, ed⟩ := e
          simp only [ZipEntry.mk.injEq]
          exact ⟨ho, hdata.symm⟩
        rw [hoe, List.filter_eq_nil_iff.mpr]
        intro x hx hb
        have hbx : x.info.filename = e.info.filename := eq_of_beq hb
        have hmemx : x.info.filename ∈ as.map (fun y => y.info.filename) := by
          rw [← hnames]
          exact List.mem_map_of_mem _ hx
        rw [hbx] at hmemx
        exact hnd.1 hmemx
      · have hname : (o.info.filename == e.info.filename) = false := by
          have hne : a.info.filename ≠ e.info.filename := by
            intro hcontra
            apply hnd.1
            rw [hcontra]
            exact List.mem_map_of_mem _ hmem
          rw [ho]
          exact beq_eq_false_iff_ne.mpr hne
        rw [List.filter_cons, if_neg (by simp [hname])]
        exact ih os hos (fun p hp => hlk p (List.mem_cons_of_mem _ hp)) hnd.2 hmem

/-- A successful infusion step writes the serialized result at `corePath`
over the extracted tree: the output tree is exactly an `insertFile` at
`corePath`. -/
theorem infuseMetadataFS_ok_shape (parseXML : String → Option XElem)
    (commit_hash release_tag : String) (t t2 : ScratchTree)
    (h : infuseMetadataFS parseXML commit_hash release_tag t = .ok t2) :
    ∃ b root, lookupFile t corePath = some b ∧
      parseXML (decodeUtf8Replace b) = some root ∧
      t2 = insertFile t corePath (encodeUtf8 (infuseOutput commit_hash release_tag root)) := by
  unfold infuseMetadataFS at h
  split at h
  · exact Except.noConfusion h
  · rename_i b hb
    split at h
    · exact Except.noConfusion h
    · rename_i root hp
      exact ⟨b, root, hb, hp, (Except.ok.inj h).symm⟩

/-- A successful `processArchive` run decomposes into its three stages. -/
theorem processArchive_ok_shape (parseXML : String → Option XElem)
    (commit_hash release_tag : String) (arch out : Archive) (t0 : ScratchTree)
    (h : processArchive parseXML commit_hash release_tag arch t0 = .ok out) :
    ∃ t2, infuseMetadataFS parseXML commit_hash release_tag (extractAllInto t0 arch) = .ok t2 ∧
      readEntries t2 (arch.map (fun e => e.info)) = (out, none) := by
  simp only [processArchive, customUnzip] at h
  split at h
  · exact Except.noConfusion h
  · rename_i t2 hi
    split at h
    · exact Except.noConfusion h
    · rename_i hr
      refine ⟨t2, hi, ?_⟩
      have h1 := Except.ok.inj h
      rw [← h1, ← hr]

/-!
Claim theorems: archive / filesystem side.
-/

/-- C1: for every valid ZIP package, after a successful
`assignMetadataToExcel` run, every archive member other than
`docProps/core.xml` appears in the output archive exactly once, at its
original relative path, with content byte-identical to the original, and
the output archive has exactly the same entry descriptors (paths, metadata,
count, order) as the input -- nothing added, dropped or renamed. -/
theorem roundtrip_untouched_members (parseXML : String → Option XElem)
    (commit_hash release_tag : String) (arch out : Archive) (t0 : ScratchTree)
    (hv : validPackage arch)
    (h : processArchive parseXML commit_hash release_tag arch t0 = .ok out) :
    out.map (fun p => p.info) = arch.map (fun p => p.info) ∧
    ∀ e ∈ arch, e.info.filename ≠ corePath →
      out.filter (fun o => o.info.filename == e.info.filename) = [e] := by
  obtain ⟨t2, hinf, hread⟩ := processArchive_ok_shape _ _ _ _ _ _ h
  obtain ⟨b, root, hb, hp, ht2⟩ := infuseMetadataFS_ok_shape _ _ _ _ _ hinf
  have hmap := readEntries_ok_map_info _ _ _ hread
  refine ⟨hmap, ?_⟩
  intro e he hne
  have hnd : (arch.map (fun x => x.info.filename)).Nodup := hv.1
  have hnorm : normalName e.info.filename = true := by
    have h2 := hv.2
    rw [List.all_eq_true] at h2
    exact h2 e he
  have hdir : isDirName e.info.filename = false := by
    cases hd2 : isDirName e.info.filename with
    | false => rfl
    | true =>
      exfalso
      unfold normalName at hnorm
      rw [hd2] at hnorm
      simp at hnorm
  have hlt1 : lookupFile (extractAllInto t0 arch) e.info.filename = some e.data :=
    lookup_extractAllInto_mem _ _ _ hnd he hdir
  have hlt2 : lookupFile t2 e.info.filename = some e.data := by
    rw [ht2, lookupFile_insert_other _ _ _ _ hne]
    exact hlt1
  exact filter_out_name arch t2 e hlt2 out hmap (readEntries_ok_lookup _ _ _ hread) hnd he

/-- Witness for C1: a concrete two-member package (core part plus
`xl/workbook.xml`) run through the pipeline; the untouched member survives
exactly once with identical bytes and the descriptor column is unchanged. -/
theorem roundtrip_untouched_members_witness :
    validPackage arch0 ∧
    processArchive parseXMLsimple "abc123" "v1.0.0" arch0 [] = .ok out0 ∧
    out0.map (fun p => p.info) = arch0.map (fun p => p.info) ∧
    out0.filter (fun o => o.info.filename == wbInfo.filename) = [⟨wbInfo, [65, 66]⟩] := by
  have hv : validPackage arch0 := ⟨by decide, by decide⟩
  have h : processArchive parseXMLsimple "abc123" "v1.0.0" arch0 [] = .ok out0 := rfl
  have hc := roundtrip_untouched_members parseXMLsimple "abc123" "v1.0.0" arch0 out0 [] hv h
  exact ⟨hv, h, hc.1, hc.2 ⟨wbInfo, [65, 66]⟩ (by decide) (by decide)⟩

/-- C9: the Repacker writes the output entries in exactly the order of the
member list captured by the Unpacker, so the output archive's entry order
equals the original archive's entry order. -/
theorem repacker_preserves_entry_order (parseXML : String → Option XElem)
    (commit_hash release_tag : String) (arch out : Archive) (t0 : ScratchTree)
    (h : processArchive parseXML commit_hash release_tag arch t0 = .ok out) :
    out.map (fun p => p.info) = arch.map (fun p => p.info) := by
  obtain ⟨t2, _, hread⟩ := processArchive_ok_shape _ _ _ _ _ _ h
  exact readEntries_ok_map_info _ _ _ hread

/-- Witness for C9: a concrete three-member package keeps its entry order. -/
theorem repacker_preserves_entry_order_witness :
    processArchive parseXMLsimple "c9" "v2" arch1 [] = .ok out1 ∧
    out1.map (fun p => p.info) = arch1.map (fun p => p.info) := by
  have h : processArchive parseXMLsimple "c9" "v2" arch1 [] = .ok out1 := rfl
  exact ⟨h, repacker_preserves_entry_order parseXMLsimple "c9" "v2" arch1 out1 [] h⟩

/-- C8: the Infuser reads and rewrites only `docProps/core.xml` inside the
scratch tree; the content of every other path is unchanged by a successful
infusion. -/
theorem infuser_touches_only_core (parseXML : String → Option XElem)
    (commit_hash release_tag : String) (tr tr2 : ScratchTree)
    (h : infuseMetadataFS parseXML commit_hash release_tag tr = .ok tr2) :
    ∀ n, n ≠ corePath → lookupFile tr2 n = lookupFile tr n := by
  obtain ⟨b, root, hb, hp, ht2⟩ := infuseMetadataFS_ok_shape _ _ _ _ _ h
  intro n hn
  rw [ht2, lookupFile_insert_other _ _ _ _ hn]

/-- Witness for C8: on a two-file scratch tree the infusion rewrites the
core part and leaves the reads of the other file untouched. -/
theorem infuser_touches_only_core_witness :
    infuseMetadataFS parseXMLsimple "a8" "b8" [("docProps/core.xml", [60]), ("xl/workbook.xml", [1, 2])]
      = .ok (insertFile [("docProps/core.xml", [60]), ("xl/workbook.xml", [1, 2])] corePath
          (encodeUtf8 (infuseOutput "a8" "b8" docSimple))) ∧
    lookupFile (insertFile [("docProps/core.xml", [60]), ("xl/workbook.xml", [1, 2])] corePath
        (encodeUtf8 (infuseOutput "a8" "b8" docSimple))) "xl/workbook.xml"
      = lookupFile [("docProps/core.xml", [60]), ("xl/workbook.xml", [1, 2])] "xl/workbook.xml" := by
  have h : infuseMetadataFS parseXMLsimple "a8" "b8"
      [("docProps/core.xml", [60]), ("xl/workbook.xml", [1, 2])]
      = .ok (insertFile [("docProps/core.xml", [60]), ("xl/workbook.xml", [1, 2])] corePath
          (encodeUtf8 (infuseOutput "a8" "b8" docSimple))) := rfl
  exact ⟨h, infuser_touches_only_core parseXMLsimple "a8" "b8" _ _ h "xl/workbook.xml" (by decide)⟩

/-- C2: on an input whose bytes are not a valid ZIP container the pipeline
raises `ArchiveError` and the file at the Package path (and the rest of the
state) is exactly as before the failed call. -/
theorem invalid_zip_leaves_file_unmodified (parseZip : List Nat → Option Archive)
    (parseXML : String → Option XElem) (encodeZip : Archive → List Nat)
    (commit_hash release_tag : String) (st : FSState)
    (h : parseZip st.pkg = none) :
    assignMetadataToExcelFS parseZip parseXML encodeZip commit_hash release_tag st
      = (some .archiveError, st) := by
  unfold assignMetadataToExcelFS
  rw [h]

/-- Witness for C2: a concrete non-ZIP byte string (the `parseZip` stand-in
rejects it) leaves the concrete state untouched and reports `ArchiveError`. -/
theorem invalid_zip_leaves_file_unmodified_witness :
    (fun _ : List Nat => (none : Option Archive)) [1, 2, 3] = none ∧
    assignMetadataToExcelFS (fun _ => none) parseXMLsimple encodeZipModel "c" "t"
        ⟨[1, 2, 3], [("x", [7])]⟩
      = (some PipelineError.archiveError, ⟨[1, 2, 3], [("x", [7])]⟩) := by
  exact ⟨rfl, invalid_zip_leaves_file_unmodified (fun _ => none) parseXMLsimple
    encodeZipModel "c" "t" ⟨[1, 2, 3], [("x", [7])]⟩ rfl⟩

/-- C6 counterexample: a repack over a member list containing the directory
entry `xl/` fails (the extracted directory cannot be opened as a file), the
scratch directory is left in place, but the bytes at the Package path *are*
changed: `ZipFile(output_file, "w")` truncated the Package on open and the
close wrote only the entries produced before the failure, contradicting the
claim that the original Package file is never left partially written. -/
theorem repacker_failure_truncates_package_cex :
    (customZipFS encodeZipModel cexInfos cexSt).1 = some PipelineError.filesystemError ∧
    (customZipFS encodeZipModel cexInfos cexSt).2.scratch = cexSt.scratch ∧
    (customZipFS encodeZipModel cexInfos cexSt).2.pkg ≠ cexSt.pkg := by
  exact ⟨by decide, by decide, by decide⟩

/-- C6 (amended): if the Repacker fails while writing, the scratch
directory is left in place, but the Package file holds exactly the encoding
of the entries written before the failure (it is truncated/partially
written, not the original bytes). -/
theorem repacker_failure_amended (encodeZip : Archive → List Nat)
    (infos : List ZipInfo) (st : FSState) (e : PipelineError) (st1 : FSState)
    (h : customZipFS encodeZip infos st = (some e, st1)) :
    st1.scratch = st.scratch ∧ st1.pkg = encodeZip (readEntries st.scratch infos).1 := by
  simp only [customZipFS] at h
  split at h
  · have h2 : FSState.mk (encodeZip (readEntries st.scratch infos).1) st.scratch = st1 :=
      congrArg Prod.snd h
    rw [← h2]
    exact ⟨rfl, rfl⟩
  · exact Option.noConfusion (congrArg Prod.fst h)

/-- Witness for the amended C6: the concrete failing repack keeps the
scratch tree and leaves the encoding of the one successfully written entry
at the Package path. -/
theorem repacker_failure_amended_witness :
    customZipFS encodeZipModel cexInfos cexSt
      = (some PipelineError.filesystemError,
          ⟨encodeZipModel [⟨wbInfo, [65, 66]⟩], cexScratch⟩) ∧
    (customZipFS encodeZipModel cexInfos cexSt).2.scratch = cexSt.scratch ∧
    (customZipFS encodeZipModel cexInfos cexSt).2.pkg
      = encodeZipModel (readEntries cexSt.scratch cexInfos).1 := by
  have h : customZipFS encodeZipModel cexInfos cexSt
      = (some PipelineError.filesystemError,
          ⟨encodeZipModel [⟨wbInfo, [65, 66]⟩], cexScratch⟩) := by decide
  have hc := repacker_failure_amended encodeZipModel cexInfos cexSt _ _ h
  refine ⟨h, ?_, ?_⟩
  · rw [h]
    exact hc.1
  · rw [h]
    exact hc.2

/-- C10 counterexample: the bytes `E2 82` (a truncated three-byte UTF-8
sequence, both bytes undecodable) decode to a *single* U+FFFD, not one
U+FFFD per undecodable byte as the claim's parenthetical states. -/
theorem decode_replacement_collapses_cex :
    decodeUtf8Replace [226, 130] = String.mk [fffd] ∧
    decodeUtf8Replace [226, 130] ≠ String.mk [fffd, fffd] := by
  exact ⟨by decide, by decide⟩

/-- C10 (amended): the Infuser never fails on non-UTF-8 bytes in
`docProps/core.xml`: decoding uses replacement (each *maximal invalid
subsequence* collapses to a single U+FFFD, e.g. `E2 82` gives one, `FF FE`
gives two) and is total, so once the file is present the step fails exactly
when the subsequent XML parse fails. -/
theorem decode_replacement_never_fails (parseXML : String → Option XElem)
    (commit_hash release_tag : String) (tr : ScratchTree) (b : List Nat)
    (hb : lookupFile tr corePath = some b) :
    (parseXML (decodeUtf8Replace b) = none →
      infuseMetadataFS parseXML commit_hash release_tag tr
        = .error .malformedDocumentError) ∧
    (∀ root, parseXML (decodeUtf8Replace b) = some root →
      infuseMetadataFS parseXML commit_hash release_tag tr
        = .ok (insertFile tr corePath
            (encodeUtf8 (infuseOutput commit_hash release_tag root)))) ∧
    decodeUtf8Replace [226, 130] = String.mk [fffd] ∧
    decodeUtf8Replace [255, 254] = String.mk [fffd, fffd] := by
  refine ⟨?_, ?_, by decide, by decide⟩
  · intro hp
    unfold infuseMetadataFS
    rw [hb]
    dsimp only
    rw [hp]
  · intro root hp
    unfold infuseMetadataFS
    rw [hb]
    dsimp only
    rw [hp]

/-- Witness for the amended C10: a core part holding the invalid bytes
`E2 82` is decoded without error; with a parser stand-in that rejects the
decoded text the step reports exactly `MalformedDocumentError`. -/
theorem decode_replacement_never_fails_witness :
    lookupFile [("docProps/core.xml", [226, 130])] corePath = some [226, 130] ∧
    infuseMetadataFS (fun _ => none) "a" "b" [("docProps/core.xml", [226, 130])]
      = .error PipelineError.malformedDocumentError := by
  have hb : lookupFile [("docProps/core.xml", [226, 130])] corePath = some [226, 130] := by decide
  exact ⟨hb, (decode_replacement_never_fails (fun _ => none) "a" "b" _ _ hb).1 rfl⟩


/-!
Helper lemmas: the Infuser's tree mutation.
-/

/-- `filterTag` keeps a matching head. -/
theorem filterTag_cons_pos (tg : XTag) (e : XElem) (es : List XElem)
    (h : (e.tag == tg) = true) :
    filterTag tg (e :: es) = e :: filterTag tg es := by
  simp only [filterTag, List.filter_cons, h, if_true]

/-- `filterTag` drops a non-matching head. -/
theorem filterTag_cons_neg (tg : XTag) (e : XElem) (es : List XElem)
    (h : (e.tag == tg) = false) :
    filterTag tg (e :: es) = filterTag tg es := by
  simp only [filterTag, List.filter_cons, h, Bool.false_eq_true, if_false]

/-- `filterTag` distributes over append. -/
theorem filterTag_append (tg : XTag) (l1 l2 : List XElem) :
    filterTag tg (l1 ++ l2) = filterTag tg l1 ++ filterTag tg l2 := by
  simp [filterTag]

/-- `find` returns a matching head. -/
theorem findTag_cons_pos (tg : XTag) (e : XElem) (es : List XElem)
    (h : (e.tag == tg) = true) :
    findTag tg (e :: es) = some e := by
  simp only [findTag, List.find?, h]

/-- `find` skips a non-matching head. -/
theorem findTag_cons_neg (tg : XTag) (e : XElem) (es : List XElem)
    (h : (e.tag == tg) = false) :
    findTag tg (e :: es) = findTag tg es := by
  simp only [findTag, List.find?, h]

/-- The element `find` returns carries the searched tag. -/
theorem findTag_some_tag (tg : XTag) (l : List XElem) (k : XElem)
    (hf : findTag tg l = some k) : k.tag = tg := by
  induction l with
  | nil => cases hf
  | cons e es ih =>
    by_cases hbe : (e.tag == tg) = true
    · rw [findTag_cons_pos _ _ _ hbe] at hf
      rw [← Option.some.inj hf]
      exact eq_of_beq hbe
    · rw [findTag_cons_neg _ _ _ (Bool.not_eq_true _ ▸ hbe)] at hf
      exact ih hf

/-- If no child carries the tag, `find` returns `None`. -/
theorem findTag_eq_none (tg : XTag) (l : List XElem) (h : tagCount tg l = 0) :
    findTag tg l = none := by
  induction l with
  | nil => rfl
  | cons e es ih =>
    by_cases hbe : (e.tag == tg) = true
    · rw [tagCount, filterTag_cons_pos _ _ _ hbe] at h
      cases h
    · rw [tagCount, filterTag_cons_neg _ _ _ (Bool.not_eq_true _ ▸ hbe)] at h
      rw [findTag_cons_neg _ _ _ (Bool.not_eq_true _ ▸ hbe)]
      exact ih h

/-- Setting the text of the first tag-match: when the tag occurs at most
once and `find` succeeds, the matching children of the result are exactly
the found element with its text replaced. -/
theorem filterTag_setFirst (tg : XTag) (txt : String) (l : List XElem)
    (hc : tagCount tg l ≤ 1) (k : XElem) (hf : findTag tg l = some k) :
    filterTag tg (setFirstTagText tg txt l) = [XElem.mk k.tag txt k.children] := by
  induction l with
  | nil => cases hf
  | cons e es ih =>
    by_cases hbe : (e.tag == tg) = true
    · have hk : k = e := by
        rw [findTag_cons_pos _ _ _ hbe] at hf
        exact (Option.some.inj hf).symm
      subst hk
      have hcnt : tagCount tg es = 0 := by
        rw [tagCount, filterTag_cons_pos _ _ _ hbe, List.length_cons] at hc
        rw [tagCount]
        omega
      rw [setFirstTagText, if_pos hbe,
        filterTag_cons_pos _ _ _ (show ((XElem.mk k.tag txt k.children).tag == tg) = true from hbe),
        show filterTag tg es = [] from List.length_eq_zero.mp hcnt]
    · have hbf : (e.tag == tg) = false := Bool.not_eq_true _ ▸ hbe
      rw [setFirstTagText, if_neg hbe, filterTag_cons_neg _ _ _ hbf]
      rw [findTag_cons_neg _ _ _ hbf] at hf
      rw [tagCount, filterTag_cons_neg _ _ _ hbf] at hc
      exact ih hc hf

/-- Setting the text of the first match of one tag does not change the
children carrying a different tag. -/
theorem filterTag_setFirst_other (tg tg2 : XTag) (txt : String) (l : List XElem)
    (hne : tg2 ≠ tg) :
    filterTag tg2 (setFirstTagText tg txt l) = filterTag tg2 l := by
  induction l with
  | nil => rfl
  | cons e es ih =>
    by_cases hbe : (e.tag == tg) = true
    · have hb2 : (e.tag == tg2) = false := by
        rw [eq_of_beq hbe]
        exact beq_eq_false_iff_ne.mpr (Ne.symm hne)
      rw [setFirstTagText, if_pos hbe,
        filterTag_cons_neg _ _ _ (show ((XElem.mk e.tag txt e.children).tag == tg2) = false from hb2),
        filterTag_cons_neg _ _ _ hb2]
    · rw [setFirstTagText, if_neg hbe]
      by_cases hb2 : (e.tag == tg2) = true
      · rw [filterTag_cons_pos _ _ _ hb2, filterTag_cons_pos _ _ _ hb2, ih]
      · have hb2f : (e.tag == tg2) = false := Bool.not_eq_true _ ▸ hb2
        rw [filterTag_cons_neg _ _ _ hb2f, filterTag_cons_neg _ _ _ hb2f, ih]

/-- Removing the first tag-match when the tag occurs at most once leaves no
child with that tag. -/
theorem filterTag_removeFirst_self (tg : XTag) (l : List XElem)
    (hc : tagCount tg l ≤ 1) :
    filterTag tg (removeFirstTag tg l) = [] := by
  induction l with
  | nil => rfl
  | cons e es ih =>
    by_cases hbe : (e.tag == tg) = true
    · rw [removeFirstTag, if_pos hbe]
      have hcnt : tagCount tg es = 0 := by
        rw [tagCount, filterTag_cons_pos _ _ _ hbe, List.length_cons] at hc
        rw [tagCount]
        omega
      exact List.length_eq_zero.mp hcnt
    · have hbf : (e.tag == tg) = false := Bool.not_eq_true _ ▸ hbe
      rw [removeFirstTag, if_neg hbe, filterTag_cons_neg _ _ _ hbf]
      rw [tagCount, filterTag_cons_neg _ _ _ hbf] at hc
      exact ih hc

/-- Removing the first match of one tag does not change the children
carrying a different tag. -/
theorem filterTag_removeFirst_other (tg tg2 : XTag) (l : List XElem)
    (hne : tg2 ≠ tg) :
    filterTag tg2 (removeFirstTag tg l) = filterTag tg2 l := by
  induction l with
  | nil => rfl
  | cons e es ih =>
    by_cases hbe : (e.tag == tg) = true
    · have hb2 : (e.tag == tg2) = false := by
        rw [eq_of_beq hbe]
        exact beq_eq_false_iff_ne.mpr (Ne.symm hne)
      rw [removeFirstTag, if_pos hbe, filterTag_cons_neg _ _ _ hb2]
    · rw [removeFirstTag, if_neg hbe]
      by_cases hb2 : (e.tag == tg2) = true
      · rw [filterTag_cons_pos _ _ _ hb2, filterTag_cons_pos _ _ _ hb2, ih]
      · have hb2f : (e.tag == tg2) = false := Bool.not_eq_true _ ▸ hb2
        rw [filterTag_cons_neg _ _ _ hb2f, filterTag_cons_neg _ _ _ hb2f, ih]

/-- The two managed tags are distinct. -/
theorem versionTag_ne_keywordsTag : versionTag ≠ keywordsTag := by decide

/-- If `find` returns `None`, no child carries the tag. -/
theorem filterTag_nil_of_findTag_none (tg : XTag) (l : List XElem)
    (h : findTag tg l = none) : filterTag tg l = [] := by
  induction l with
  | nil => rfl
  | cons e es ih =>
    by_cases hbe : (e.tag == tg) = true
    · rw [findTag_cons_pos _ _ _ hbe] at h
      cases h
    · have hbf : (e.tag == tg) = false := Bool.not_eq_true _ ▸ hbe
      rw [findTag_cons_neg _ _ _ hbf] at h
      rw [filterTag_cons_neg _ _ _ hbf]
      exact ih h

/-- The keywords step of `_infuseMetadata` over an arbitrary child list `l`
holding at most one `cp:keywords` child: the `cp:version` children are
untouched, and exactly one `cp:keywords` child remains, with the commit
text. -/
theorem keywordsStep_filters (commit_hash : String) (l : List XElem)
    (hkc : tagCount keywordsTag l ≤ 1) :
    (∀ k, findTag keywordsTag l = some k →
      filterTag versionTag
          (removeFirstTag keywordsTag l ++ [XElem.mk k.tag commit_hash k.children])
        = filterTag versionTag l ∧
      (filterTag keywordsTag
          (removeFirstTag keywordsTag l ++ [XElem.mk k.tag commit_hash k.children])).map XElem.text
        = [commit_hash]) ∧
    (findTag keywordsTag l = none →
      filterTag versionTag (l ++ [XElem.mk keywordsTag commit_hash []])
        = filterTag versionTag l ∧
      (filterTag keywordsTag (l ++ [XElem.mk keywordsTag commit_hash []])).map XElem.text
        = [commit_hash]) := by
  constructor
  · intro k hfk
    have hktag : k.tag = keywordsTag := findTag_some_tag _ _ _ hfk
    have hkv : (k.tag == versionTag) = false := by
      rw [hktag]
      decide
    have hkkw : (k.tag == keywordsTag) = true := by
      rw [hktag]
      decide
    constructor
    · rw [filterTag_append,
        filterTag_cons_neg versionTag (XElem.mk k.tag commit_hash k.children) [] hkv,
        filterTag_removeFirst_other _ _ _ versionTag_ne_keywordsTag]
      simp [filterTag]
    · rw [filterTag_append,
        filterTag_cons_pos keywordsTag (XElem.mk k.tag commit_hash k.children) [] hkkw,
        filterTag_removeFirst_self _ _ hkc]
      simp [filterTag, XElem.text]
  · intro hfk
    have hnil : filterTag keywordsTag l = [] := filterTag_nil_of_findTag_none _ _ hfk
    have hkv : (keywordsTag == versionTag) = false := by decide
    have hkkw : (keywordsTag == keywordsTag) = true := by decide
    constructor
    · rw [filterTag_append,
        filterTag_cons_neg versionTag (XElem.mk keywordsTag commit_hash []) [] hkv]
      simp [filterTag]
    · rw [filterTag_append, hnil,
        filterTag_cons_pos keywordsTag (XElem.mk keywordsTag commit_hash []) [] hkkw]
      simp [filterTag, XElem.text]

/-- The child list of an infused document, written without the `let`
bindings of `infuseTree`. -/
theorem infuseTree_children (commit_hash release_tag : String) (root : XElem) :
    (infuseTree commit_hash release_tag root).children =
      (match findTag keywordsTag
          (match findTag versionTag root.children with
            | some _ => setFirstTagText versionTag release_tag root.children
            | none => root.children ++ [XElem.mk versionTag release_tag []]) with
        | some k =>
          removeFirstTag keywordsTag
              (match findTag versionTag root.children with
                | some _ => setFirstTagText versionTag release_tag root.children
                | none => root.children ++ [XElem.mk versionTag release_tag []])
            ++ [XElem.mk k.tag commit_hash k.children]
        | none =>
          (match findTag versionTag root.children with
            | some _ => setFirstTagText versionTag release_tag root.children
            | none => root.children ++ [XElem.mk versionTag release_tag []])
            ++ [XElem.mk keywordsTag commit_hash []]) := by
  obtain ⟨rt, rx, ch0⟩ := root
  rfl

/-- The full effect of one `_infuseMetadata` tree mutation on a well-formed
document: exactly one `cp:version` child with the release tag, exactly one
`cp:keywords` child with the commit hash, and the result is again
well-formed. -/
theorem infuse_texts (commit_hash release_tag : String) (root : XElem)
    (hwf : WellFormedCore root) :
    versionTexts (infuseTree commit_hash release_tag root) = [release_tag] ∧
    keywordTexts (infuseTree commit_hash release_tag root) = [commit_hash] ∧
    WellFormedCore (infuseTree commit_hash release_tag root) := by
  obtain ⟨hv1, hk1⟩ := hwf
  simp only [versionTexts, keywordTexts, WellFormedCore, infuseTree_children]
  cases hfv : findTag versionTag root.children with
  | some v =>
    dsimp only
    have hvv : filterTag versionTag (setFirstTagText versionTag release_tag root.children)
        = [XElem.mk v.tag release_tag v.children] := filterTag_setFirst _ _ _ hv1 v hfv
    have hkk : filterTag keywordsTag (setFirstTagText versionTag release_tag root.children)
        = filterTag keywordsTag root.children :=
      filterTag_setFirst_other _ _ _ _ (Ne.symm versionTag_ne_keywordsTag)
    have hkc1 : tagCount keywordsTag (setFirstTagText versionTag release_tag root.children) ≤ 1 := by
      rw [tagCount, hkk]
      exact hk1
    have hstep := keywordsStep_filters commit_hash _ hkc1
    cases hfk : findTag keywordsTag (setFirstTagText versionTag release_tag root.children) with
    | some k =>
      dsimp only
      obtain ⟨hsv, hsk⟩ := hstep.1 k hfk
      refine ⟨?_, ?_, ?_, ?_⟩
      · rw [hsv, hvv]
        simp [XElem.text]
      · exact hsk
      · rw [tagCount, hsv, hvv]
        simp
      · rw [tagCount]
        have h4 := congrArg List.length hsk
        simp only [List.length_map, List.length_singleton] at h4
        omega
    | none =>
      dsimp only
      obtain ⟨hsv, hsk⟩ := hstep.2 hfk
      refine ⟨?_, ?_, ?_, ?_⟩
      · rw [hsv, hvv]
        simp [XElem.text]
      · exact hsk
      · rw [tagCount, hsv, hvv]
        simp
      · rw [tagCount]
        have h4 := congrArg List.length hsk
        simp only [List.length_map, List.length_singleton] at h4
        omega
  | none =>
    dsimp only
    have hnil : filterTag versionTag root.children = [] := filterTag_nil_of_findTag_none _ _ hfv
    have hvtrue : (versionTag == versionTag) = true := by decide
    have hvkw : (versionTag == keywordsTag) = false := by decide
    have hvv : filterTag versionTag (root.children ++ [XElem.mk versionTag release_tag []])
        = [XElem.mk versionTag release_tag []] := by
      rw [filterTag_append, hnil, filterTag_cons_pos _ _ _ hvtrue]
      rfl
    have hkk : filterTag keywordsTag (root.children ++ [XElem.mk versionTag release_tag []])
        = filterTag keywordsTag root.children := by
      rw [filterTag_append, filterTag_cons_neg _ _ _ hvkw]
      simp [filterTag]
    have hkc1 : tagCount keywordsTag (root.children ++ [XElem.mk versionTag release_tag []]) ≤ 1 := by
      rw [tagCount, hkk]
      exact hk1
    have hstep := keywordsStep_filters commit_hash _ hkc1
    cases hfk : findTag keywordsTag (root.children ++ [XElem.mk versionTag release_tag []]) with
    | some k =>
      dsimp only
      obtain ⟨hsv, hsk⟩ := hstep.1 k hfk
      refine ⟨?_, ?_, ?_, ?_⟩
      · rw [hsv, hvv]
        simp [XElem.text]
      · exact hsk
      · rw [tagCount, hsv, hvv]
        simp
      · rw [tagCount]
        have h4 := congrArg List.length hsk
        simp only [List.length_map, List.length_singleton] at h4
        omega
    | none =>
      dsimp only
      obtain ⟨hsv, hsk⟩ := hstep.2 hfk
      refine ⟨?_, ?_, ?_, ?_⟩
      · rw [hsv, hvv]
        simp [XElem.text]
      · exact hsk
      · rw [tagCount, hsv, hvv]
        simp
      · rw [tagCount]
        have h4 := congrArg List.length hsk
        simp only [List.length_map, List.length_singleton] at h4
        omega

/-- A list is a prefix of itself followed by anything. -/
theorem isPrefixOfL_append_self (l r : List Char) : isPrefixOfL l (l ++ r) = true := by
  induction l with
  | nil => rfl
  | cons a as ih => simp [isPrefixOfL, ih]

/-- Unescaping is a left inverse of the serializer's CDATA escaping: the
character data an XML parser reads back from the serialized text is the
text verbatim. -/
theorem unesc_esc (l : List Char) : unescCdataList (escCdataList l) = l := by
  induction l with
  | nil => simp [escCdataList, unescCdataList]
  | cons c cs ih =>
    rw [escCdataList]
    by_cases h1 : c = Char.ofNat 38
    · subst h1
      rw [escCdataChar, if_pos rfl, List.cons_append, unescCdataList, if_pos rfl,
        if_pos (isPrefixOfL_append_self _ _),
        show ("amp;".toList ++ escCdataList cs).drop 4 = escCdataList cs from
          List.drop_left "amp;".toList (escCdataList cs), ih]
    · rw [escCdataChar, if_neg h1]
      by_cases h2 : c = Char.ofNat 60
      · subst h2
        rw [if_pos rfl, List.cons_append, unescCdataList, if_pos rfl,
          if_neg (by rw [show (isPrefixOfL "amp;".toList ("lt;".toList ++ escCdataList cs)) = false from rfl]; exact Bool.false_ne_true),
          if_pos (isPrefixOfL_append_self _ _),
          show ("lt;".toList ++ escCdataList cs).drop 3 = escCdataList cs from
            List.drop_left "lt;".toList (escCdataList cs), ih]
      · rw [if_neg h2]
        by_cases h3 : c = Char.ofNat 62
        · subst h3
          rw [if_pos rfl, List.cons_append, unescCdataList, if_pos rfl,
            if_neg (by rw [show (isPrefixOfL "amp;".toList ("gt;".toList ++ escCdataList cs)) = false from rfl]; exact Bool.false_ne_true),
            if_neg (by rw [show (isPrefixOfL "lt;".toList ("gt;".toList ++ escCdataList cs)) = false from rfl]; exact Bool.false_ne_true),
            if_pos (isPrefixOfL_append_self _ _),
            show ("gt;".toList ++ escCdataList cs).drop 3 = escCdataList cs from
              List.drop_left "gt;".toList (escCdataList cs), ih]
        · rw [if_neg h3, List.singleton_append, unescCdataList, if_neg h1, ih]

/-!
Claim theorems: the Infuser's tree mutation and serialization.
-/

/-- C4: after infusion the keywords element is always the last child of the
root -- also when keywords previously existed as the first (or any other)
child -- and when version and keywords are both absent on input, both
elements are created in the core-properties namespace with the given texts,
appended in that order, keywords last. -/
theorem keywords_always_last_child (commit_hash release_tag : String) (root : XElem) :
    (∃ k, (infuseTree commit_hash release_tag root).children.getLast? = some k ∧
      k.tag = keywordsTag ∧ k.text = commit_hash) ∧
    (tagCount versionTag root.children = 0 → tagCount keywordsTag root.children = 0 →
      (infuseTree commit_hash release_tag root).children
        = root.children
            ++ [XElem.mk versionTag release_tag [], XElem.mk keywordsTag commit_hash []]) := by
  constructor
  · rw [infuseTree_children]
    cases hfv : findTag versionTag root.children with
    | some v =>
      dsimp only
      cases hfk : findTag keywordsTag (setFirstTagText versionTag release_tag root.children) with
      | some k =>
        dsimp only
        exact ⟨XElem.mk k.tag commit_hash k.children, List.getLast?_concat _,
          findTag_some_tag _ _ k hfk, rfl⟩
      | none =>
        dsimp only
        exact ⟨XElem.mk keywordsTag commit_hash [], List.getLast?_concat _, rfl, rfl⟩
    | none =>
      dsimp only
      cases hfk : findTag keywordsTag (root.children ++ [XElem.mk versionTag release_tag []]) with
      | some k =>
        dsimp only
        exact ⟨XElem.mk k.tag commit_hash k.children, List.getLast?_concat _,
          findTag_some_tag _ _ k hfk, rfl⟩
      | none =>
        dsimp only
        exact ⟨XElem.mk keywordsTag commit_hash [], List.getLast?_concat _, rfl, rfl⟩
  · intro hv0 hk0
    rw [infuseTree_children, findTag_eq_none _ _ hv0]
    dsimp only
    have hk1 : tagCount keywordsTag (root.children ++ [XElem.mk versionTag release_tag []]) = 0 := by
      rw [tagCount, filterTag_append,
        filterTag_cons_neg keywordsTag (XElem.mk versionTag release_tag []) []
          (show (versionTag == keywordsTag) = false by decide),
        show filterTag keywordsTag root.children = [] from List.length_eq_zero.mp hk0]
      rfl
    rw [findTag_eq_none _ _ hk1]
    dsimp only
    rw [List.append_assoc]
    rfl

/-- Witness for C4: on a document whose first child is keywords, after
infusion keywords is the last child; on a document with neither element,
both are created with the given texts and keywords last. -/
theorem keywords_always_last_child_witness :
    (∃ k, (infuseTree "c4" "v4" docKwFirst).children.getLast? = some k ∧
      k.tag = keywordsTag ∧ k.text = "c4") ∧
    tagCount versionTag docSimple.children = 0 ∧
    tagCount keywordsTag docSimple.children = 0 ∧
    (infuseTree "c4" "v4" docSimple).children
      = docSimple.children ++ [XElem.mk versionTag "v4" [], XElem.mk keywordsTag "c4" []] := by
  exact ⟨(keywords_always_last_child "c4" "v4" docKwFirst).1, by decide, by decide,
    (keywords_always_last_child "c4" "v4" docSimple).2 (by decide) (by decide)⟩

/-- C5: infusing twice in succession on a well-formed document leaves
exactly one version element and exactly one keywords element, whose texts
are the tag and commit of the second invocation only. -/
theorem infuser_second_invocation_wins (c1 t1 c2 t2 : String) (root : XElem)
    (hwf : WellFormedCore root) :
    tagCount versionTag (infuseTree c2 t2 (infuseTree c1 t1 root)).children = 1 ∧
    tagCount keywordsTag (infuseTree c2 t2 (infuseTree c1 t1 root)).children = 1 ∧
    versionTexts (infuseTree c2 t2 (infuseTree c1 t1 root)) = [t2] ∧
    keywordTexts (infuseTree c2 t2 (infuseTree c1 t1 root)) = [c2] := by
  obtain ⟨_, _, hwf1⟩ := infuse_texts c1 t1 root hwf
  obtain ⟨hv, hk, _⟩ := infuse_texts c2 t2 _ hwf1
  refine ⟨?_, ?_, hv, hk⟩
  · have h4 := congrArg List.length hv
    rw [versionTexts, List.length_map, List.length_singleton] at h4
    exact h4
  · have h4 := congrArg List.length hk
    rw [keywordTexts, List.length_map, List.length_singleton] at h4
    exact h4

/-- Witness for C5: two successive infusions on a document that already has
a keywords child give one version and one keywords element holding exactly
the second invocation's values. -/
theorem infuser_second_invocation_wins_witness :
    WellFormedCore docKwFirst ∧
    tagCount versionTag (infuseTree "c2w" "t2w" (infuseTree "c1w" "t1w" docKwFirst)).children = 1 ∧
    tagCount keywordsTag (infuseTree "c2w" "t2w" (infuseTree "c1w" "t1w" docKwFirst)).children = 1 ∧
    versionTexts (infuseTree "c2w" "t2w" (infuseTree "c1w" "t1w" docKwFirst)) = ["t2w"] ∧
    keywordTexts (infuseTree "c2w" "t2w" (infuseTree "c1w" "t1w" docKwFirst)) = ["c2w"] := by
  have hwf : WellFormedCore docKwFirst := ⟨by decide, by decide⟩
  have hc := infuser_second_invocation_wins "c1w" "t1w" "c2w" "t2w" docKwFirst hwf
  exact ⟨hwf, hc.1, hc.2.1, hc.2.2.1, hc.2.2.2⟩

/-- C7: any commit and release-tag strings -- the empty string included --
are accepted and written verbatim with no validation: the infused document
has exactly one version child with text equal to the release tag and one
keywords child with text equal to the commit, and the serializer's escaping
of that text is undone exactly by the parser's unescaping, so re-parsing
the written document recovers the values verbatim. -/
theorem infuser_accepts_verbatim (commit_hash release_tag : String) (root : XElem)
    (hwf : WellFormedCore root) :
    versionTexts (infuseTree commit_hash release_tag root) = [release_tag] ∧
    keywordTexts (infuseTree commit_hash release_tag root) = [commit_hash] ∧
    unescCdataList (escCdataList release_tag.toList) = release_tag.toList ∧
    unescCdataList (escCdataList commit_hash.toList) = commit_hash.toList := by
  obtain ⟨h1, h2, _⟩ := infuse_texts commit_hash release_tag root hwf
  exact ⟨h1, h2, unesc_esc _, unesc_esc _⟩

/-- Witness for C7: the empty commit and tag are accepted and stored
verbatim as empty texts. -/
theorem infuser_accepts_verbatim_witness :
    WellFormedCore docSimple ∧
    versionTexts (infuseTree "" "" docSimple) = [""] ∧
    keywordTexts (infuseTree "" "" docSimple) = [""] := by
  have hwf : WellFormedCore docSimple := ⟨by decide, by decide⟩
  have hc := infuser_accepts_verbatim "" "" docSimple hwf
  exact ⟨hwf, hc.1, hc.2.1⟩

/-- Appending strings appends their character lists. -/
theorem strToList_append (a b : String) : (a ++ b).toList = a.toList ++ b.toList := by
  cases a
  cases b
  rfl

/-- The textual replacement of source line 82 on a string that starts with
the serializer's declaration: the first `?>` hit is the declaration's, so
the injection lands inside the declaration. -/
theorem replaceFirst_decl (rest : List Char) :
    replaceFirstL "?>".toList standaloneInject (xmlDeclPreChars ++ (Char.ofNat 63 :: Char.ofNat 62 :: rest))
      = xmlDeclPreChars ++ (standaloneInject ++ rest) := rfl

/-- The serialized document splits as declaration, `?>`, newline, body. -/
theorem serializeDoc_toList (root : XElem) :
    (serializeDoc root).toList
      = xmlDeclPreChars ++ (Char.ofNat 63 :: Char.ofNat 62 :: Char.ofNat 10
          :: (serializeBody root).toList) := by
  rw [serializeDoc, strToList_append, strToList_append, List.append_assoc]
  rfl

/-- C3 counterexample: on a core-properties document whose title text
contains the word `standalone`, the substring guard of source line 81 fires
on the document body, the injection is skipped, and the written text's
declaration (everything before the first `?>`) contains no `standalone`
attribute -- refuting the claim that the output always begins with a
declaration that includes `standalone="yes"`. -/
theorem declaration_standalone_skipped_cex :
    infuseOutput "abc" "v1" docStandalone
      = serializeDoc (infuseTree "abc" "v1" docStandalone) ∧
    hasSubstrL "standalone".toList
      (takeBeforeL "?>".toList (infuseOutput "abc" "v1" docStandalone).toList) = false := by
  exact ⟨rfl, by decide⟩

/-- C3 (amended): the written XML always begins with the declaration
`<?xml version='1.0' encoding='UTF-8'`; whenever the serialized document
does not contain the substring `standalone` anywhere, `standalone="yes"` is
injected into that declaration (the code skips the injection when the
substring occurs anywhere in the document, including in element text). -/
theorem declaration_correctness_amended (commit_hash release_tag : String) (root : XElem) :
    (hasSubstrL "standalone".toList
        (serializeDoc (infuseTree commit_hash release_tag root)).toList = false →
      infuseOutput commit_hash release_tag root
        = String.mk (xmlDeclPreChars ++ (standaloneInject
            ++ (Char.ofNat 10 :: (serializeBody (infuseTree commit_hash release_tag root)).toList)))) ∧
    isPrefixOfL xmlDeclPreChars (infuseOutput commit_hash release_tag root).toList = true := by
  constructor
  · intro hno
    rw [infuseOutput, ensureStandalone, if_neg (by rw [hno]; exact Bool.false_ne_true)]
    rw [serializeDoc_toList, replaceFirst_decl]
  · rw [infuseOutput, ensureStandalone]
    by_cases hs : hasSubstrL "standalone".toList
        (serializeDoc (infuseTree commit_hash release_tag root)).toList = true
    · rw [if_pos hs, serializeDoc_toList]
      exact isPrefixOfL_append_self _ _
    · rw [if_neg hs,
        show (String.mk (replaceFirstL "?>".toList standaloneInject
          (serializeDoc (infuseTree commit_hash release_tag root)).toList)).toList
          = replaceFirstL "?>".toList standaloneInject
              (serializeDoc (infuseTree commit_hash release_tag root)).toList from rfl,
        serializeDoc_toList, replaceFirst_decl]
      exact isPrefixOfL_append_self _ _

/-- Witness for the amended C3: on a document free of the word
`standalone`, the written text is the declaration with `standalone="yes"`
injected, followed by the body. -/
theorem declaration_correctness_amended_witness :
    hasSubstrL "standalone".toList
      (serializeDoc (infuseTree "abc123" "v1.0.0" docSimple)).toList = false ∧
    infuseOutput "abc123" "v1.0.0" docSimple
      = String.mk (xmlDeclPreChars ++ (standaloneInject
          ++ (Char.ofNat 10 :: (serializeBody (infuseTree "abc123" "v1.0.0" docSimple)).toList))) ∧
    isPrefixOfL xmlDeclPreChars (infuseOutput "abc123" "v1.0.0" docSimple).toList = true := by
  have hno : hasSubstrL "standalone".toList
      (serializeDoc (infuseTree "abc123" "v1.0.0" docSimple)).toList = false := by decide
  have hc := declaration_correctness_amended "abc123" "v1.0.0" docSimple
  exact ⟨hno, hc.1 hno, hc.2⟩
